import Mathlib

/-
Verification development for the secure federated-aggregation core:
shallow embedding of fl_common/he_utils.py, fl_server/server.py (FedAvgHE)
and the sample accounting of fl_client/client.py, with the CKKS scheme
modelled as exact fixed-point encoding at the global scale 2^40 (the
encoding rounding realises the scheme's approximation error; further
CKKS noise is not modelled). Machine floats are modelled as rationals
plus explicit IEEE specials where the code's sanitisation depends on them.
-/

namespace FL

/-- Model of a raw floating-point value as it can appear in a tensor:
either a finite value (modelled exactly as a rational) or one of the
non-finite IEEE specials. -/
inductive FVal where
  | fin (q : ℚ)
  | nan
  | inf
  | ninf
deriving DecidableEq, Repr

/-- Embedding of numpy.nan_to_num with nan=0.0, posinf=0.0, neginf=0.0:
every non-finite entry becomes zero. -/
def nanToNum : FVal → ℚ
  | .fin q => q
  | _ => 0

/-- Clamp a finite value to the symmetric bound ±10, as np.clip(x, -10.0, 10.0)
does on finite input. -/
def clipQ (q : ℚ) : ℚ := max (-10) (min 10 q)

/-- Embedding of np.clip(·, -10.0, 10.0) on a possibly non-finite value:
numpy clips +inf to the upper bound, -inf to the lower bound, and lets NaN
through unchanged. -/
def npClip : FVal → FVal
  | .fin q => .fin (clipQ q)
  | .nan => .nan
  | .inf => .fin 10
  | .ninf => .fin (-10)

/-- Per-entry preparation on the codec path (he_utils.encrypt_update,
lines 55-56): nan_to_num first, then clip. -/
def codecPrep (v : FVal) : ℚ := clipQ (nanToNum v)

/-- Per-entry preparation on the server aggregation path
(server._aggregate_he, lines 189-190): clip first, then nan_to_num. -/
def serverPrep (v : FVal) : ℚ := nanToNum (npClip v)

/-- HE_SCALE_BITS from fl_common/model.py. -/
def HE_SCALE_BITS : ℕ := 40

/-- The CKKS global scale 2^HE_SCALE_BITS. -/
def heScale : ℚ := 2 ^ HE_SCALE_BITS

/-- Fixed-point encoding of one rational at the global scale: round(x·Δ). -/
def encodeInt (x : ℚ) : ℤ := round (x * heScale)

/-- Ideal model of a CKKS ciphertext: the vector of fixed-point encodings
round(x·Δ) at the global scale Δ. -/
structure CKKSVec where
  data : List ℤ
deriving DecidableEq, Repr

/-- Model of ts.ckks_vector(ctx, xs): encode each entry at the global scale. -/
def ckksEncrypt (v : List ℚ) : CKKSVec := ⟨v.map encodeInt⟩

/-- Model of homomorphic addition of two CKKS ciphertexts. -/
def ckksAdd (a b : CKKSVec) : CKKSVec := ⟨List.zipWith (· + ·) a.data b.data⟩

/-- Model of CKKSVector.decrypt: decode each slot back at the global scale. -/
def ckksDecrypt (c : CKKSVec) : List ℚ := c.data.map (fun m : ℤ => (m : ℚ) / heScale)

/-- Association-list model of a Python dict (keys unique, insertion order
preserved); lookup of a missing key yields none, modelling a KeyError where
the code indexes directly. -/
def dlookup {α : Type} (k : String) (d : List (String × α)) : Option α :=
  (d.find? (fun kv => kv.1 == k)).map (fun kv => kv.2)

/-- Option-valued map over a list, failing when any element fails. -/
def optMapM {α β : Type} (f : α → Option β) : List α → Option (List β)
  | [] => some []
  | a :: l =>
    match f a, optMapM f l with
    | some b, some bs => some (b :: bs)
    | _, _ => none

/-- Embedding of he_utils.encrypt_update: per layer, sanitise (nan_to_num)
then clip then encrypt; the recorded shape is modelled by its element count. -/
def encrypt_update (delta : List (String × List FVal)) :
    List (String × CKKSVec) × List (String × ℕ) :=
  (delta.map (fun kv => (kv.1, ckksEncrypt (kv.2.map codecPrep))),
   delta.map (fun kv => (kv.1, kv.2.length)))

/-- Inner loop of he_utils.encrypted_sum for one key: starting from the
first update's ciphertext, add each later update's ciphertext for that key;
a later update missing the key raises KeyError, modelled as none. -/
def sumOverRest (k : String) (acc : CKKSVec) :
    List (List (String × CKKSVec)) → Option CKKSVec
  | [] => some acc
  | u :: us =>
    match dlookup k u with
    | some v => sumOverRest k (ckksAdd acc v) us
    | none => none

/-- Embedding of he_utils.encrypted_sum: an empty input gives the empty
dict; otherwise iterate over the first update's keys in order and sum the
corresponding ciphertexts across all updates. -/
def encrypted_sum (updates : List (List (String × CKKSVec))) :
    Option (List (String × CKKSVec)) :=
  match updates with
  | [] => some []
  | first :: rest =>
    optMapM (fun kv => (sumOverRest kv.1 kv.2 rest).map (fun c => (kv.1, c))) first

/-- Flattened layer tensor. -/
abbrev Vec := List ℚ

/-- Layers of a model, aligned with the state-dict key list. -/
abbrev Layers := List Vec

/-- Embedding of he_utils.decrypt_update: decrypt each summed ciphertext,
scrub non-finite values (a no-op in the exact model), truncate to the
recorded element count, and divide by num_clients; a missing shape entry
raises KeyError, modelled as none. -/
def decrypt_update (encSum : List (String × CKKSVec))
    (shapes : List (String × ℕ)) (numClients : ℕ) :
    Option (List (String × Vec)) :=
  optMapM (fun kv =>
      (dlookup kv.1 shapes).map (fun numEl =>
        (kv.1, ((ckksDecrypt kv.2).take numEl).map (fun q => q / (numClients : ℚ)))))
    encSum

/-- Zero vector, np.zeros_like on a vector of the given length. -/
def vzeros (k : ℕ) : Vec := List.replicate k 0

/-- Pointwise vector addition (numpy +=, shapes assumed equal). -/
def vadd (a b : Vec) : Vec := List.zipWith (· + ·) a b

/-- Scaling of a vector by a rational factor, layers[i] * (n/total). -/
def vscale (c : ℚ) (v : Vec) : Vec := v.map (fun x => x * c)

/-- Weighted-average fold for one layer index, the loop body shared by
_aggregate_plain and the non-selected branch of _aggregate_he: starting
from zeros shaped like the template's layer i, accumulate
layers[i] * (n/total) over all clients. -/
def plainLayerAvg (results : List (Layers × ℕ)) (total : ℚ)
    (tmpl : Layers) (i : ℕ) : Vec :=
  results.foldl (fun acc r => vadd acc (vscale ((r.2 : ℚ) / total) (r.1.getD i [])))
    (vzeros ((tmpl.getD i []).length))

/-- Embedding of FedAvgHE._aggregate_plain (server lines 140-154): per
layer, accumulate layers[i] * (n/total) over all clients starting from
zeros shaped like the first client's layer. Only called with non-empty
results (aggregate_fit returns early otherwise). -/
def aggregate_plain (results : List (Layers × ℕ)) : Layers :=
  let total : ℚ := ((results.map (fun r => r.2)).sum : ℕ)
  let first : Layers := (results.headD ([], 0)).1
  (List.range first.length).map (plainLayerAvg results total first)

/-- Clipped, sanitised delta of one client for one layer: the entrywise
clip-then-nan_to_num composition (server lines 188-190) applied to the
finite difference layers[i] - global[i]. -/
def sanDelta (p g : Vec) : Vec :=
  List.zipWith (fun pv gv => serverPrep (.fin (pv - gv))) p g

/-- Delta for one selected layer of one client (server lines 188-190):
numpy subtraction, then clip, then nan_to_num. Numpy broadcasts a size-1
operand by stretching it to the other operand's length; any other length
mismatch raises (modelled as none). -/
def npSubDelta (p g : Vec) : Option Vec :=
  if p.length = g.length then some (sanDelta p g)
  else if p.length = 1 then
    some (sanDelta (List.replicate g.length (p.headD 0)) g)
  else if g.length = 1 then
    some (sanDelta p (List.replicate p.length (g.headD 0)))
  else none

/-- Indices of the selected (encrypted) layers within the state-dict key
order, the positions for which `key in SELECTED_LAYERS` holds. -/
def selIdxOf (keys selected : List String) : List ℕ :=
  (List.range keys.length).filter (fun i => selected.contains (keys.getD i ""))

/-- One client's encrypted delta dict (server lines 184-193): for each
selected layer, in state-dict key order, compute the clipped sanitised
delta and encrypt it. -/
def clientEncDeltas (keys selected : List String) (global : Layers)
    (layers : Layers) : Option (List (String × CKKSVec)) :=
  optMapM (fun i =>
      (npSubDelta (layers.getD i []) (global.getD i [])).map
        (fun d => (keys.getD i "", ckksEncrypt d)))
    (selIdxOf keys selected)

/-- Initial new_ndarrays of _aggregate_he (server lines 170-179): plain
sample-count-weighted average for non-selected layers, the current global
value for selected layers. -/
def heBase (keys selected : List String) (global : Layers)
    (results : List (Layers × ℕ)) : Layers :=
  let total : ℚ := ((results.map (fun r => r.2)).sum : ℕ)
  let first : Layers := (results.headD ([], 0)).1
  (List.range keys.length).map (fun i =>
    if selected.contains (keys.getD i "") then global.getD i []
    else plainLayerAvg results total first i)

/-- Final loop of _aggregate_he (server lines 197-204): decrypt each summed
ciphertext, truncate to the recorded element count, divide by num_clients
and overwrite new_ndarrays[keys.index(key)] with global + delta_avg. -/
def heCommit (keys : List String) (global : Layers) (num_clients : ℕ)
    (enc_agg : List (String × CKKSVec)) (base : Layers) : Layers :=
  enc_agg.foldl (fun nd kc =>
      let i := keys.indexOf kc.1
      let numEl := (global.getD i []).length
      nd.set i (vadd (global.getD i [])
        (((ckksDecrypt kc.2).take numEl).map (fun q => q / (num_clients : ℚ)))))
    base

/-- Embedding of FedAvgHE._aggregate_he (server lines 158-214). Non-selected
layers get the plain sample-count-weighted average; selected layers start at
the current global value and are then overwritten with
global + decrypt(homomorphic sum)/num_clients. Any ciphertext failure
(non-broadcastable shape mismatch, missing key) propagates as none: the
Python function wraps none of these operations in try/except. The shape
recorded for a selected
layer equals the global layer's element count whenever the per-client delta
computations succeed. -/
def aggregate_he (keys selected : List String) (global : Layers)
    (results : List (Layers × ℕ)) : Option Layers :=
  match optMapM (fun r => clientEncDeltas keys selected global r.1) results with
  | none => none
  | some encrypted_deltas =>
    match encrypted_sum encrypted_deltas with
    | none => none
    | some enc_agg =>
      some (heCommit keys global results.length enc_agg
        (heBase keys selected global results))

/-- Embedding of FedAvgHE.aggregate_fit (server lines 118-136): with no
results it returns (None, {}) before touching the model; otherwise it
aggregates (HE or plain) and commits the result to the global model. A
failure inside the HE aggregation propagates as an uncaught exception, so
no parameters are produced and the model is untouched. First component:
the returned parameters; second component: the global model afterwards. -/
def aggregate_fit (use_he : Bool) (keys selected : List String)
    (global : Layers) (results : List (Layers × ℕ)) : Option Layers × Layers :=
  if results.isEmpty then (none, global)
  else if use_he then
    match aggregate_he keys selected global results with
    | none => (none, global)
    | some new => (some new, new)
  else
    let new := aggregate_plain results
    (some new, new)

/-- Batch-yielding loop of a torch DataLoader over n remaining samples at
batch size b (fuel-structured recursion; the fuel n suffices since every
batch consumes at least one sample when 0 < b). -/
def batchSizesAux (b : ℕ) : ℕ → ℕ → List ℕ
  | 0, _ => []
  | fuel + 1, n => if 0 < n then min b n :: batchSizesAux b fuel (n - b) else []

/-- Sizes of the batches a torch DataLoader yields over a dataset of n
samples at the given batch size: full batches of size b, then one partial
remainder batch. -/
def batchSizes (n b : ℕ) : List ℕ :=
  if 0 < b then batchSizesAux b n n else []

/-- Samples consumed by local_train (client lines 146-167): per epoch the
loop breaks once batch_idx reaches max_batches, and each processed batch
adds its size to total_samples. -/
def localTrainNumSamples (batches : List ℕ) (epochs maxBatches : ℕ) : ℕ :=
  epochs * (batches.take maxBatches).sum

/-- Sample-count part of the triple IDSClient.fit returns. -/
structure FitReturn where
  numExamples : ℕ
  metricsNumSamples : ℕ
deriving DecidableEq, Repr

/-- Sample accounting of IDSClient.fit (client lines 225-268): the second
component of the returned Flower triple is self.num_samples, the full
dataset size fixed at client construction (run_train_mode line 316), while
the count the training loop actually consumed only appears inside the
metrics dict. -/
def clientFit (datasetSize batchSize epochs maxBatches : ℕ) : FitReturn :=
  { numExamples := datasetSize
    metricsNumSamples :=
      localTrainNumSamples (batchSizes datasetSize batchSize) epochs maxBatches }

/-- Modelled from the spec: the sample-count-weighted average of the
per-client clipped deltas of one layer at entry j, the same weighted-average
logic the plaintext path uses. -/
def specWeightedDeltaAvg (ds : List (Vec × ℕ)) (j : ℕ) : ℚ :=
  (ds.map (fun d => (d.1.getD j 0) * (d.2 : ℚ))).sum
    / (((ds.map (fun d => d.2)).sum : ℕ) : ℚ)

/-- Uniform (unweighted) mean of the per-client deltas of one layer at
entry j. -/
def specUniformDeltaAvg (ds : List (Vec × ℕ)) (j : ℕ) : ℚ :=
  (ds.map (fun d => d.1.getD j 0)).sum / (ds.length : ℚ)

/-- Tolerance used by the spec's approximate statements. -/
def epsTol : ℚ := 1 / 1000

/-
Lemma layer: bounds of the sanitising preparations, the fixed-point
rounding error, and pointwise descriptions of the list folds the
aggregation code performs.
-/

lemma clipQ_bounds (q : ℚ) : -10 ≤ clipQ q ∧ clipQ q ≤ 10 := by
  constructor
  · exact le_max_left _ _
  · exact max_le (by norm_num) (min_le_left _ _)

lemma codecPrep_bounds (v : FVal) : -10 ≤ codecPrep v ∧ codecPrep v ≤ 10 :=
  clipQ_bounds (nanToNum v)

lemma serverPrep_fin (q : ℚ) : serverPrep (.fin q) = clipQ q := rfl

lemma codecPrep_fin (q : ℚ) : codecPrep (.fin q) = clipQ q := rfl

lemma serverPrep_bounds (v : FVal) : -10 ≤ serverPrep v ∧ serverPrep v ≤ 10 := by
  cases v with
  | fin q => rw [serverPrep_fin]; exact clipQ_bounds q
  | nan => simp [serverPrep, npClip, nanToNum]
  | inf => simp [serverPrep, npClip, nanToNum]
  | ninf => simp [serverPrep, npClip, nanToNum]

lemma heScale_pos : (0 : ℚ) < heScale := by
  norm_num [heScale, HE_SCALE_BITS]

lemma abs_encode_err (x : ℚ) :
    |((encodeInt x : ℤ) : ℚ) / heScale - x| ≤ 1 / (2 * heScale) := by
  have h := abs_sub_round (x * heScale)
  have hΔ := heScale_pos
  have hrw : ((encodeInt x : ℤ) : ℚ) / heScale - x
      = (((round (x * heScale) : ℤ) : ℚ) - x * heScale) / heScale := by
    field_simp [encodeInt]
    ring
  rw [hrw, abs_div, abs_of_pos hΔ]
  rw [div_le_div_iff₀ hΔ (by positivity)]
  have habs : |((round (x * heScale) : ℤ) : ℚ) - x * heScale| ≤ 1 / 2 := by
    rw [abs_sub_comm]; exact h
  calc |((round (x * heScale) : ℤ) : ℚ) - x * heScale| * (2 * heScale)
      ≤ (1 / 2) * (2 * heScale) := by
        apply mul_le_mul_of_nonneg_right habs; positivity
    _ = 1 * heScale := by ring

lemma abs_sum_encode_err (xs : List ℚ) :
    |(((xs.map encodeInt).sum : ℤ) : ℚ) / heScale - xs.sum|
      ≤ (xs.length : ℚ) / (2 * heScale) := by
  induction xs with
  | nil => simp
  | cons x xs ih =>
    have hΔ := heScale_pos
    have hsplit : ((((x :: xs).map encodeInt).sum : ℤ) : ℚ) / heScale - (x :: xs).sum
        = (((encodeInt x : ℤ) : ℚ) / heScale - x)
          + ((((xs.map encodeInt).sum : ℤ) : ℚ) / heScale - xs.sum) := by
      push_cast
      field_simp
      ring
    rw [hsplit]
    calc |(((encodeInt x : ℤ) : ℚ) / heScale - x)
          + ((((xs.map encodeInt).sum : ℤ) : ℚ) / heScale - xs.sum)|
        ≤ |((encodeInt x : ℤ) : ℚ) / heScale - x|
          + |(((xs.map encodeInt).sum : ℤ) : ℚ) / heScale - xs.sum| := abs_add _ _
      _ ≤ 1 / (2 * heScale) + (xs.length : ℚ) / (2 * heScale) := by
          exact add_le_add (abs_encode_err x) ih
      _ = ((x :: xs).length : ℚ) / (2 * heScale) := by
          simp [List.length_cons]
          ring

lemma length_vadd (a b : Vec) : (vadd a b).length = min a.length b.length := by
  simp [vadd]

lemma getD_vadd (a b : Vec) (j : ℕ) (hja : j < a.length) (hjb : j < b.length) :
    (vadd a b).getD j 0 = a.getD j 0 + b.getD j 0 := by
  have hj : j < (vadd a b).length := by rw [length_vadd]; omega
  rw [List.getD_eq_getElem _ _ hj, List.getD_eq_getElem _ _ hja,
    List.getD_eq_getElem _ _ hjb]
  simp [vadd]

lemma length_vscale (c : ℚ) (v : Vec) : (vscale c v).length = v.length := by
  simp [vscale]

lemma getD_vscale (c : ℚ) (v : Vec) (j : ℕ) (hj : j < v.length) :
    (vscale c v).getD j 0 = v.getD j 0 * c := by
  have hj2 : j < (vscale c v).length := by rw [length_vscale]; omega
  rw [List.getD_eq_getElem _ _ hj2, List.getD_eq_getElem _ _ hj]
  simp [vscale]

lemma length_sanDelta (p g : Vec) (h : p.length = g.length) :
    (sanDelta p g).length = g.length := by
  simp [sanDelta, h]

lemma getD_sanDelta (p g : Vec) (j : ℕ) (hp : j < p.length) (hg : j < g.length) :
    (sanDelta p g).getD j 0 = serverPrep (.fin (p.getD j 0 - g.getD j 0)) := by
  have hj : j < (sanDelta p g).length := by simp [sanDelta]; omega
  rw [List.getD_eq_getElem _ _ hj, List.getD_eq_getElem _ _ hp,
    List.getD_eq_getElem _ _ hg]
  simp [sanDelta]

lemma foldl_vadd_spec {β : Type} (F : β → Vec) (L : ℕ) (rs : List β) :
    ∀ (acc : Vec), acc.length = L → (∀ r ∈ rs, (F r).length = L) →
      (rs.foldl (fun a r => vadd a (F r)) acc).length = L ∧
      ∀ j, j < L → (rs.foldl (fun a r => vadd a (F r)) acc).getD j 0
        = acc.getD j 0 + (rs.map (fun r => (F r).getD j 0)).sum := by
  induction rs with
  | nil => intro acc hacc _; exact ⟨hacc, by simp⟩
  | cons r rs ih =>
    intro acc hacc hF
    have hFr : (F r).length = L := hF r (List.mem_cons_self _ _)
    have hlen : (vadd acc (F r)).length = L := by
      rw [length_vadd, hacc, hFr]; omega
    have hrest := ih (vadd acc (F r)) hlen
      (fun x hx => hF x (List.mem_cons_of_mem _ hx))
    refine ⟨hrest.1, fun j hj => ?_⟩
    have hgd : (vadd acc (F r)).getD j 0 = acc.getD j 0 + (F r).getD j 0 :=
      getD_vadd _ _ j (by omega) (by omega)
    calc ((r :: rs).foldl (fun a x => vadd a (F x)) acc).getD j 0
        = (rs.foldl (fun a x => vadd a (F x)) (vadd acc (F r))).getD j 0 := rfl
      _ = (vadd acc (F r)).getD j 0 + (rs.map (fun x => (F x).getD j 0)).sum :=
          hrest.2 j hj
      _ = acc.getD j 0 + ((r :: rs).map (fun x => (F x).getD j 0)).sum := by
          rw [hgd]; simp; ring

lemma foldl_ckksAdd_spec {β : Type} (F : β → CKKSVec) (L : ℕ) (rs : List β) :
    ∀ (acc : CKKSVec), acc.data.length = L → (∀ r ∈ rs, (F r).data.length = L) →
      (rs.foldl (fun a r => ckksAdd a (F r)) acc).data.length = L ∧
      ∀ j, j < L → (rs.foldl (fun a r => ckksAdd a (F r)) acc).data.getD j 0
        = acc.data.getD j 0 + (rs.map (fun r => (F r).data.getD j 0)).sum := by
  induction rs with
  | nil => intro acc hacc _; exact ⟨hacc, by simp⟩
  | cons r rs ih =>
    intro acc hacc hF
    have hFr : (F r).data.length = L := hF r (List.mem_cons_self _ _)
    have hlen : (ckksAdd acc (F r)).data.length = L := by
      simp [ckksAdd, hacc, hFr]
    have hrest := ih (ckksAdd acc (F r)) hlen
      (fun x hx => hF x (List.mem_cons_of_mem _ hx))
    refine ⟨hrest.1, fun j hj => ?_⟩
    have hj1 : j < acc.data.length := by omega
    have hj2 : j < (F r).data.length := by omega
    have hj3 : j < (ckksAdd acc (F r)).data.length := by omega
    have hgd : (ckksAdd acc (F r)).data.getD j 0
        = acc.data.getD j 0 + (F r).data.getD j 0 := by
      rw [List.getD_eq_getElem _ _ hj3, List.getD_eq_getElem _ _ hj1,
        List.getD_eq_getElem _ _ hj2]
      simp [ckksAdd]
    calc ((r :: rs).foldl (fun a x => ckksAdd a (F x)) acc).data.getD j 0
        = (rs.foldl (fun a x => ckksAdd a (F x)) (ckksAdd acc (F r))).data.getD j 0 := rfl
      _ = (ckksAdd acc (F r)).data.getD j 0 + (rs.map (fun x => (F x).data.getD j 0)).sum :=
          hrest.2 j hj
      _ = acc.data.getD j 0 + ((r :: rs).map (fun x => (F x).data.getD j 0)).sum := by
          rw [hgd]; simp; ring

lemma optMapM_eq_map {α β : Type} (f : α → Option β) (g : α → β) (l : List α)
    (h : ∀ a ∈ l, f a = some (g a)) : optMapM f l = some (l.map g) := by
  induction l with
  | nil => rfl
  | cons a l ih =>
    have ha : f a = some (g a) := h a (List.mem_cons_self _ _)
    have hl : optMapM f l = some (l.map g) :=
      ih (fun x hx => h x (List.mem_cons_of_mem _ hx))
    simp [optMapM, ha, hl]

lemma optMapM_none {α β : Type} (f : α → Option β) (l : List α)
    (h : ∃ a ∈ l, f a = none) : optMapM f l = none := by
  induction l with
  | nil => simp at h
  | cons a l ih =>
    rcases h with ⟨x, hx, hfx⟩
    rcases List.mem_cons.mp hx with rfl | hx2
    · simp [optMapM, hfx]
    · have := ih ⟨x, hx2, hfx⟩
      cases hfa : f a <;> simp [optMapM, hfa, this]

lemma optMapM_map_eq {α β γ : Type} (f : α → Option β) (p : β → γ) (q : α → γ)
    (hf : ∀ a b, f a = some b → p b = q a) (l : List α) :
    ∀ out, optMapM f l = some out → out.map p = l.map q := by
  induction l with
  | nil => intro out h; simp [optMapM] at h; simp [← h]
  | cons a l ih =>
    intro out h
    cases hfa : f a with
    | none => simp [optMapM, hfa] at h
    | some b =>
      cases hrest : optMapM f l with
      | none => simp [optMapM, hfa, hrest] at h
      | some bs =>
        simp [optMapM, hfa, hrest] at h
        subst h
        simp [hf a b hfa, ih bs hrest]

lemma optMapM_map_list {α α2 β : Type} (f : α2 → Option β) (m : α → α2) (l : List α) :
    optMapM f (l.map m) = optMapM (fun a => f (m a)) l := by
  induction l with
  | nil => rfl
  | cons a l ih => simp [optMapM, ih]

lemma foldl_congr_mem {α β : Type} (f g : β → α → β) (l : List α)
    (h : ∀ a ∈ l, ∀ b, f b a = g b a) : ∀ b, l.foldl f b = l.foldl g b := by
  induction l with
  | nil => intro b; rfl
  | cons a l ih =>
    intro b
    have ha : f b a = g b a := h a (List.mem_cons_self _ _) b
    simp only [List.foldl_cons, ha]
    exact ih (fun x hx b2 => h x (List.mem_cons_of_mem _ hx) b2) _

lemma dlookup_cons {β : Type} (k k2 : String) (v : β) (d : List (String × β)) :
    dlookup k ((k2, v) :: d) = if k2 == k then some v else dlookup k d := by
  by_cases h : k2 == k <;> simp [dlookup, List.find?_cons, h]

lemma dlookup_map_inj {α β : Type} (key : α → String) (F : α → β) (l : List α)
    (hinj : ∀ a ∈ l, ∀ b ∈ l, key a = key b → a = b) :
    ∀ i ∈ l, dlookup (key i) (l.map (fun a => (key a, F a))) = some (F i) := by
  induction l with
  | nil => intro i hi; simp at hi
  | cons a l ih =>
    intro i hi
    rcases List.mem_cons.mp hi with rfl | hi2
    · simp [dlookup_cons]
    · by_cases hk : key a = key i
      · have : a = i := hinj a (List.mem_cons_self _ _) i hi (by rw [hk])
        subst this
        simp [dlookup_cons]
      · have hbeq : (key a == key i) = false := by
          simp [hk]
        rw [List.map_cons, dlookup_cons, hbeq]
        simp only [Bool.false_eq_true, if_false]
        exact ih (fun x hx y hy hxy =>
          hinj x (List.mem_cons_of_mem _ hx) y (List.mem_cons_of_mem _ hy) hxy) i hi2

lemma sumOverRest_eq (k : String) (h : List (String × CKKSVec) → CKKSVec)
    (us : List (List (String × CKKSVec))) :
    ∀ acc, (∀ u ∈ us, dlookup k u = some (h u)) →
      sumOverRest k acc us = some (us.foldl (fun a u => ckksAdd a (h u)) acc) := by
  induction us with
  | nil => intro acc _; rfl
  | cons u us ih =>
    intro acc hus
    have hu : dlookup k u = some (h u) := hus u (List.mem_cons_self _ _)
    simp only [sumOverRest, hu, List.foldl_cons]
    exact ih _ (fun x hx => hus x (List.mem_cons_of_mem _ hx))

lemma sumOverRest_none (k : String) (us : List (List (String × CKKSVec))) :
    ∀ acc, (∃ u ∈ us, dlookup k u = none) → sumOverRest k acc us = none := by
  induction us with
  | nil => intro acc h; simp at h
  | cons u us ih =>
    intro acc h
    rcases h with ⟨x, hx, hlx⟩
    rcases List.mem_cons.mp hx with rfl | hx2
    · simp [sumOverRest, hlx]
    · cases hu : dlookup k u with
      | none => simp [sumOverRest, hu]
      | some v =>
        simp only [sumOverRest, hu]
        exact ih _ ⟨x, hx2, hlx⟩

lemma foldl_set_fun_length (V : ℕ → Vec) (l : List ℕ) :
    ∀ base : Layers, (l.foldl (fun nd i => nd.set i (V i)) base).length = base.length := by
  induction l with
  | nil => intro base; rfl
  | cons a l ih => intro base; simp [ih, List.length_set]

lemma foldl_set_fun_not_mem (V : ℕ → Vec) (l : List ℕ) :
    ∀ (base : Layers) (i : ℕ), i ∉ l →
      (l.foldl (fun nd i2 => nd.set i2 (V i2)) base).getD i [] = base.getD i [] := by
  induction l with
  | nil => intro base i _; rfl
  | cons a l ih =>
    intro base i hi
    have hne : a ≠ i := fun h => hi (h ▸ List.mem_cons_self _ _)
    have hi2 : i ∉ l := fun h => hi (List.mem_cons_of_mem _ h)
    simp only [List.foldl_cons]
    rw [ih _ i hi2]
    by_cases hlen : i < base.length
    · have hlen2 : i < (base.set a (V a)).length := by simp [List.length_set]; omega
      rw [List.getD_eq_getElem _ _ hlen2, List.getD_eq_getElem _ _ hlen]
      exact List.getElem_set_ne hne _
    · rw [List.getD_eq_default, List.getD_eq_default]
      · omega
      · simp [List.length_set]; omega

lemma foldl_set_fun_mem (V : ℕ → Vec) (l : List ℕ) :
    ∀ (base : Layers) (i : ℕ), l.Nodup → i ∈ l → i < base.length →
      (l.foldl (fun nd i2 => nd.set i2 (V i2)) base).getD i [] = V i := by
  induction l with
  | nil => intro base i _ hi _; simp at hi
  | cons a l ih =>
    intro base i hnd hi hlen
    rcases List.mem_cons.mp hi with rfl | hi2
    · have hnotin : i ∉ l := (List.nodup_cons.mp hnd).1
      simp only [List.foldl_cons]
      rw [foldl_set_fun_not_mem V l _ i hnotin]
      have hlen2 : i < (base.set i (V i)).length := by simp [List.length_set]; omega
      rw [List.getD_eq_getElem _ _ hlen2]
      exact List.getElem_set_self _
    · simp only [List.foldl_cons]
      exact ih _ i (List.nodup_cons.mp hnd).2 hi2 (by simp [List.length_set]; omega)

lemma mem_selIdxOf (keys selected : List String) (i : ℕ) :
    i ∈ selIdxOf keys selected ↔
      i < keys.length ∧ selected.contains (keys.getD i "") = true := by
  simp [selIdxOf, List.mem_filter, List.mem_range]

lemma nodup_selIdxOf (keys selected : List String) :
    (selIdxOf keys selected).Nodup :=
  List.Nodup.filter _ (List.nodup_range _)

lemma keys_getD_inj (keys : List String) (hNd : keys.Nodup)
    (i j : ℕ) (hi : i < keys.length) (hj : j < keys.length)
    (h : keys.getD i "" = keys.getD j "") : i = j := by
  rw [List.getD_eq_getElem _ _ hi, List.getD_eq_getElem _ _ hj] at h
  exact (List.Nodup.getElem_inj_iff hNd).mp h

lemma keys_indexOf_getD (keys : List String) (hNd : keys.Nodup)
    (i : ℕ) (hi : i < keys.length) :
    List.indexOf (keys.getD i "") keys = i := by
  rw [List.getD_eq_getElem _ _ hi]
  exact List.indexOf_getElem hNd i hi

lemma clientEncDeltas_eq (keys selected : List String) (global : Layers)
    (layers : Layers)
    (hshape : ∀ i, i < keys.length →
      (layers.getD i []).length = (global.getD i []).length) :
    clientEncDeltas keys selected global layers
      = some ((selIdxOf keys selected).map (fun i =>
          (keys.getD i "",
            ckksEncrypt (sanDelta (layers.getD i []) (global.getD i []))))) := by
  apply optMapM_eq_map
  intro i hi
  have hi2 := (mem_selIdxOf keys selected i).mp hi
  have hlen := hshape i hi2.1
  unfold npSubDelta
  rw [if_pos hlen]
  rfl

lemma encrypted_sum_dicts (keys selected : List String)
    (C : (Layers × ℕ) → ℕ → CKKSVec) (hNd : keys.Nodup)
    (r0 : Layers × ℕ) (rs : List (Layers × ℕ)) :
    encrypted_sum ((r0 :: rs).map (fun r =>
        (selIdxOf keys selected).map (fun i => (keys.getD i "", C r i))))
      = some ((selIdxOf keys selected).map (fun i =>
          (keys.getD i "", rs.foldl (fun a r => ckksAdd a (C r i)) (C r0 i)))) := by
  have hinj : ∀ a ∈ selIdxOf keys selected, ∀ b ∈ selIdxOf keys selected,
      keys.getD a "" = keys.getD b "" → a = b := by
    intro a ha b hb h
    exact keys_getD_inj keys hNd a b
      ((mem_selIdxOf _ _ _).mp ha).1 ((mem_selIdxOf _ _ _).mp hb).1 h
  have hlook : ∀ (r : Layers × ℕ) (i : ℕ), i ∈ selIdxOf keys selected →
      dlookup (keys.getD i "")
          ((selIdxOf keys selected).map (fun a => (keys.getD a "", C r a)))
        = some (C r i) :=
    fun r i hi => dlookup_map_inj _ _ _ hinj i hi
  simp only [List.map_cons, encrypted_sum]
  rw [optMapM_map_list]
  apply optMapM_eq_map
  intro i hi
  have hcond : ∀ u ∈ rs.map (fun r =>
      (selIdxOf keys selected).map (fun a => (keys.getD a "", C r a))),
      dlookup (keys.getD i "") u
        = some ((dlookup (keys.getD i "") u).getD (C r0 i)) := by
    intro u hu
    rcases List.mem_map.mp hu with ⟨r, hr, rfl⟩
    rw [hlook r i hi]
    rfl
  have h1 := sumOverRest_eq (keys.getD i "")
    (fun u => (dlookup (keys.getD i "") u).getD (C r0 i)) _ (C r0 i) hcond
  have h2 : (rs.map (fun r =>
        (selIdxOf keys selected).map (fun a => (keys.getD a "", C r a)))).foldl
        (fun a u => ckksAdd a ((dlookup (keys.getD i "") u).getD (C r0 i)))
        (C r0 i)
      = rs.foldl (fun a r => ckksAdd a (C r i)) (C r0 i) := by
    rw [List.foldl_map]
    apply foldl_congr_mem
    intro r hr b
    rw [hlook r i hi]
    rfl
  rw [h1, h2]
  rfl

lemma length_ckksEncrypt (v : List ℚ) : (ckksEncrypt v).data.length = v.length := by
  simp [ckksEncrypt]

lemma getD_ckksEncrypt (v : List ℚ) (j : ℕ) (hj : j < v.length) :
    (ckksEncrypt v).data.getD j 0 = encodeInt (v.getD j 0) := by
  have hj2 : j < (ckksEncrypt v).data.length := by rw [length_ckksEncrypt]; omega
  rw [List.getD_eq_getElem _ _ hj2, List.getD_eq_getElem _ _ hj]
  simp [ckksEncrypt]

lemma length_ckksDecrypt (c : CKKSVec) : (ckksDecrypt c).length = c.data.length := by
  unfold ckksDecrypt
  exact List.length_map _ _

lemma getD_ckksDecrypt (c : CKKSVec) (j : ℕ) (hj : j < c.data.length) :
    (ckksDecrypt c).getD j 0 = ((c.data.getD j 0 : ℤ) : ℚ) / heScale := by
  have hj2 : j < (ckksDecrypt c).length := by rw [length_ckksDecrypt]; omega
  rw [List.getD_eq_getElem _ _ hj2, List.getD_eq_getElem _ _ hj]
  simp only [ckksDecrypt, List.getElem_map]

lemma getD_vzeros (L j : ℕ) : (vzeros L).getD j 0 = 0 := by
  by_cases h : j < L
  · rw [List.getD_eq_getElem _ _ (by simp [vzeros]; omega)]
    simp [vzeros]
  · rw [List.getD_eq_default]
    simp [vzeros]
    omega

lemma aggregate_he_eq (keys selected : List String) (global : Layers)
    (r0 : Layers × ℕ) (rs : List (Layers × ℕ)) (hNd : keys.Nodup)
    (hshape : ∀ r ∈ r0 :: rs, ∀ i, i < keys.length →
      (r.1.getD i []).length = (global.getD i []).length) :
    aggregate_he keys selected global (r0 :: rs)
      = some (heCommit keys global (r0 :: rs).length
          ((selIdxOf keys selected).map (fun i =>
            (keys.getD i "",
              rs.foldl (fun a r => ckksAdd a
                  (ckksEncrypt (sanDelta (r.1.getD i []) (global.getD i []))))
                (ckksEncrypt (sanDelta (r0.1.getD i []) (global.getD i []))))))
          (heBase keys selected global (r0 :: rs))) := by
  have hOM : optMapM (fun r => clientEncDeltas keys selected global r.1) (r0 :: rs)
      = some ((r0 :: rs).map (fun r => (selIdxOf keys selected).map (fun i =>
          (keys.getD i "",
            ckksEncrypt (sanDelta (r.1.getD i []) (global.getD i [])))))) := by
    apply optMapM_eq_map
    intro r hr
    exact clientEncDeltas_eq keys selected global r.1 (hshape r hr)
  have hES := encrypted_sum_dicts keys selected
    (fun r i => ckksEncrypt (sanDelta (r.1.getD i []) (global.getD i []))) hNd r0 rs
  simp only [aggregate_he, hOM, hES]

lemma plainLayerAvg_spec (results : List (Layers × ℕ)) (total : ℚ)
    (tmpl : Layers) (i : ℕ) (L : ℕ)
    (htmpl : (tmpl.getD i []).length = L)
    (hres : ∀ r ∈ results, (r.1.getD i []).length = L) :
    (plainLayerAvg results total tmpl i).length = L ∧
    ∀ j, j < L → (plainLayerAvg results total tmpl i).getD j 0
      = (results.map (fun r => (r.1.getD i []).getD j 0 * ((r.2 : ℚ) / total))).sum := by
  have h := foldl_vadd_spec
    (fun r => vscale ((r.2 : ℚ) / total) (r.1.getD i [])) L results (vzeros L)
    (by simp [vzeros]) (fun r hr => by rw [length_vscale]; exact hres r hr)
  have hpl : plainLayerAvg results total tmpl i
      = results.foldl
          (fun acc r => vadd acc (vscale ((r.2 : ℚ) / total) (r.1.getD i [])))
          (vzeros L) := by
    rw [plainLayerAvg, htmpl]
  rw [hpl]
  refine ⟨h.1, fun j hj => ?_⟩
  rw [h.2 j hj, getD_vzeros, zero_add]
  apply congrArg
  apply List.map_congr_left
  intro r hr
  exact getD_vscale _ _ j (hres r hr ▸ hj)

lemma heBase_spec (keys selected : List String) (global : Layers)
    (results : List (Layers × ℕ)) :
    (heBase keys selected global results).length = keys.length ∧
    ∀ i, i < keys.length →
      (heBase keys selected global results).getD i []
        = if selected.contains (keys.getD i "") then global.getD i []
          else plainLayerAvg results (((results.map (fun r => r.2)).sum : ℕ) : ℚ)
            (results.headD ([], 0)).1 i := by
  constructor
  · simp [heBase]
  · intro i hi
    have hlen : i < (heBase keys selected global results).length := by
      simp [heBase]; omega
    rw [List.getD_eq_getElem _ _ hlen]
    simp [heBase]

lemma heCommit_spec (keys selected : List String) (global : Layers)
    (n : ℕ) (S : ℕ → CKKSVec) (base : Layers) (hNd : keys.Nodup)
    (hbase : base.length = keys.length) :
    (heCommit keys global n
        ((selIdxOf keys selected).map (fun i => (keys.getD i "", S i))) base).length
      = keys.length ∧
    (∀ i, i ∉ selIdxOf keys selected →
      (heCommit keys global n
          ((selIdxOf keys selected).map (fun i => (keys.getD i "", S i))) base).getD i []
        = base.getD i []) ∧
    (∀ i, i ∈ selIdxOf keys selected →
      (heCommit keys global n
          ((selIdxOf keys selected).map (fun i => (keys.getD i "", S i))) base).getD i []
        = vadd (global.getD i [])
            (((ckksDecrypt (S i)).take ((global.getD i []).length)).map
              (fun q => q / (n : ℚ)))) := by
  have hconv : heCommit keys global n
      ((selIdxOf keys selected).map (fun i => (keys.getD i "", S i))) base
    = (selIdxOf keys selected).foldl
        (fun nd i => nd.set i (vadd (global.getD i [])
          (((ckksDecrypt (S i)).take ((global.getD i []).length)).map
            (fun q => q / (n : ℚ))))) base := by
    rw [heCommit, List.foldl_map]
    apply foldl_congr_mem
    intro i hi b
    have hilt : i < keys.length := ((mem_selIdxOf _ _ _).mp hi).1
    simp only [keys_indexOf_getD keys hNd i hilt]
  rw [hconv]
  refine ⟨?_, fun i hi => ?_, fun i hi => ?_⟩
  · rw [foldl_set_fun_length, hbase]
  · exact foldl_set_fun_not_mem _ _ _ _ hi
  · exact foldl_set_fun_mem _ _ _ _ (nodup_selIdxOf keys selected) hi
      (by rw [hbase]; exact ((mem_selIdxOf _ _ _).mp hi).1)

lemma ckksSum_spec (global : Layers) (i : ℕ) (L : ℕ)
    (hL : (global.getD i []).length = L)
    (r0 : Layers × ℕ) (rs : List (Layers × ℕ))
    (hsh : ∀ r ∈ r0 :: rs, (r.1.getD i []).length = L) :
    (rs.foldl (fun a r => ckksAdd a
          (ckksEncrypt (sanDelta (r.1.getD i []) (global.getD i []))))
        (ckksEncrypt (sanDelta (r0.1.getD i []) (global.getD i [])))).data.length = L ∧
    ∀ j, j < L →
      (rs.foldl (fun a r => ckksAdd a
            (ckksEncrypt (sanDelta (r.1.getD i []) (global.getD i []))))
          (ckksEncrypt (sanDelta (r0.1.getD i []) (global.getD i [])))).data.getD j 0
        = ((r0 :: rs).map (fun r => encodeInt (serverPrep (.fin
            ((r.1.getD i []).getD j 0 - (global.getD i []).getD j 0))))).sum := by
  have hClen : ∀ r ∈ r0 :: rs,
      (ckksEncrypt (sanDelta (r.1.getD i []) (global.getD i []))).data.length = L := by
    intro r hr
    rw [length_ckksEncrypt, length_sanDelta _ _ (by rw [hsh r hr, hL]), hL]
  have hCget : ∀ r ∈ r0 :: rs, ∀ j, j < L →
      (ckksEncrypt (sanDelta (r.1.getD i []) (global.getD i []))).data.getD j 0
        = encodeInt (serverPrep (.fin
            ((r.1.getD i []).getD j 0 - (global.getD i []).getD j 0))) := by
    intro r hr j hj
    rw [getD_ckksEncrypt _ j
        (by rw [length_sanDelta _ _ (by rw [hsh r hr, hL]), hL]; omega)]
    rw [getD_sanDelta _ _ j (by rw [hsh r hr]; omega) (by omega)]
  have h := foldl_ckksAdd_spec
    (fun r => ckksEncrypt (sanDelta (r.1.getD i []) (global.getD i []))) L rs
    (ckksEncrypt (sanDelta (r0.1.getD i []) (global.getD i [])))
    (hClen r0 (List.mem_cons_self _ _))
    (fun r hr => hClen r (List.mem_cons_of_mem _ hr))
  refine ⟨h.1, fun j hj => ?_⟩
  rw [h.2 j hj, List.map_cons, List.sum_cons]
  rw [hCget r0 (List.mem_cons_self _ _) j hj]
  apply congrArg
  apply congrArg
  apply List.map_congr_left
  intro r hr
  exact hCget r (List.mem_cons_of_mem _ hr) j hj

lemma aggregate_he_spec (keys selected : List String) (global : Layers)
    (results : List (Layers × ℕ)) (hne : results ≠ []) (hNd : keys.Nodup)
    (hshape : ∀ r ∈ results, ∀ i, i < keys.length →
      (r.1.getD i []).length = (global.getD i []).length) :
    ∃ new, aggregate_he keys selected global results = some new ∧
      new.length = keys.length ∧
      (∀ i, i < keys.length → selected.contains (keys.getD i "") = true →
        ∀ j, j < (global.getD i []).length →
          (new.getD i []).getD j 0
            = (global.getD i []).getD j 0
              + (((results.map (fun r => encodeInt (serverPrep (.fin
                    ((r.1.getD i []).getD j 0 - (global.getD i []).getD j 0))))).sum : ℚ)
                  / heScale) / (results.length : ℚ)) ∧
      (∀ i, i < keys.length → selected.contains (keys.getD i "") = false →
        ∀ j, j < (global.getD i []).length →
          (new.getD i []).getD j 0
            = (results.map (fun r => (r.1.getD i []).getD j 0
                * ((r.2 : ℚ) / (((results.map (fun r2 => r2.2)).sum : ℕ) : ℚ)))).sum) := by
  obtain ⟨r0, rs, rfl⟩ := List.exists_cons_of_ne_nil hne
  have hB := heBase_spec keys selected global (r0 :: rs)
  have hHC := heCommit_spec keys selected global (r0 :: rs).length
    (fun i => rs.foldl (fun a r => ckksAdd a
        (ckksEncrypt (sanDelta (r.1.getD i []) (global.getD i []))))
      (ckksEncrypt (sanDelta (r0.1.getD i []) (global.getD i []))))
    (heBase keys selected global (r0 :: rs)) hNd hB.1
  refine ⟨_, aggregate_he_eq keys selected global r0 rs hNd hshape, hHC.1, ?_, ?_⟩
  · intro i hi hsel j hj
    have hmem : i ∈ selIdxOf keys selected := (mem_selIdxOf _ _ _).mpr ⟨hi, hsel⟩
    rw [hHC.2.2 i hmem]
    have hS := ckksSum_spec global i ((global.getD i []).length) rfl r0 rs
      (fun r hr => hshape r hr i hi)
    have htake : (ckksDecrypt (rs.foldl (fun a r => ckksAdd a
          (ckksEncrypt (sanDelta (r.1.getD i []) (global.getD i []))))
        (ckksEncrypt (sanDelta (r0.1.getD i []) (global.getD i []))))).take
          ((global.getD i []).length)
        = ckksDecrypt (rs.foldl (fun a r => ckksAdd a
            (ckksEncrypt (sanDelta (r.1.getD i []) (global.getD i []))))
          (ckksEncrypt (sanDelta (r0.1.getD i []) (global.getD i [])))) := by
      apply List.take_of_length_le
      rw [length_ckksDecrypt, hS.1]
    rw [htake]
    have hdlen : (ckksDecrypt (rs.foldl (fun a r => ckksAdd a
          (ckksEncrypt (sanDelta (r.1.getD i []) (global.getD i []))))
        (ckksEncrypt (sanDelta (r0.1.getD i []) (global.getD i []))))).length
        = (global.getD i []).length := by
      rw [length_ckksDecrypt, hS.1]
    have hmaplen : j < ((ckksDecrypt (rs.foldl (fun a r => ckksAdd a
          (ckksEncrypt (sanDelta (r.1.getD i []) (global.getD i []))))
        (ckksEncrypt (sanDelta (r0.1.getD i []) (global.getD i []))))).map
          (fun q => q / (((r0 :: rs).length : ℕ) : ℚ))).length := by
      rw [List.length_map, hdlen]; omega
    rw [getD_vadd _ _ j hj (by rw [List.length_map, hdlen]; omega)]
    apply congrArg
    rw [List.getD_eq_getElem _ _ hmaplen, List.getElem_map]
    rw [← List.getD_eq_getElem _ 0 (by rw [hdlen]; omega)]
    rw [getD_ckksDecrypt _ j (by rw [hS.1]; omega)]
    rw [hS.2 j hj]
  · intro i hi hsel j hj
    have hmem : i ∉ selIdxOf keys selected := by
      intro hcon
      rw [((mem_selIdxOf _ _ _).mp hcon).2] at hsel
      exact absurd hsel (by simp)
    rw [hHC.2.1 i hmem, hB.2 i hi, if_neg (by rw [hsel]; exact Bool.false_ne_true)]
    have hpl := plainLayerAvg_spec (r0 :: rs)
      ((((r0 :: rs).map (fun r => r.2)).sum : ℕ) : ℚ)
      ((r0 :: rs).headD ([], 0)).1 i ((global.getD i []).length)
      (hshape r0 (List.mem_cons_self _ _) i hi)
      (fun r hr => hshape r hr i hi)
    exact hpl.2 j hj

lemma epsTol_bound : 1 / (2 * heScale) ≤ epsTol := by
  norm_num [heScale, HE_SCALE_BITS, epsTol]

lemma he_mean_err (xs : List ℚ) (hne : xs ≠ []) :
    |((xs.map encodeInt).sum : ℚ) / heScale / (xs.length : ℚ)
        - xs.sum / (xs.length : ℚ)| ≤ epsTol := by
  have hn : 0 < (xs.length : ℚ) := by
    have h0 : 0 < xs.length := List.length_pos.mpr hne
    exact_mod_cast h0
  have h := abs_sum_encode_err xs
  have hrw : ((xs.map encodeInt).sum : ℚ) / heScale / (xs.length : ℚ)
        - xs.sum / (xs.length : ℚ)
      = (((xs.map encodeInt).sum : ℚ) / heScale - xs.sum) / (xs.length : ℚ) := by
    ring
  rw [hrw, abs_div, abs_of_pos hn]
  have hne0 : (xs.length : ℚ) ≠ 0 := ne_of_gt hn
  calc |((xs.map encodeInt).sum : ℚ) / heScale - xs.sum| / (xs.length : ℚ)
      ≤ ((xs.length : ℚ) / (2 * heScale)) / (xs.length : ℚ) := by
        gcongr
    _ = 1 / (2 * heScale) := by
        have h1 : (0 : ℚ) < 2 * heScale := by
          have := heScale_pos
          linarith
        have h2 : (0 : ℚ) < 2 * heScale * (xs.length : ℚ) := mul_pos h1 hn
        rw [div_div]
        rw [div_eq_div_iff h2.ne' h1.ne']
        ring
    _ ≤ epsTol := epsTol_bound

lemma sum_mul_div {α : Type} (l : List α) (f : α → ℚ) (w : α → ℚ) (t : ℚ) :
    (l.map (fun r => f r * (w r / t))).sum
      = (l.map (fun r => f r * w r)).sum / t := by
  induction l with
  | nil => simp
  | cons a l ih =>
    simp only [List.map_cons, List.sum_cons, ih]
    ring

lemma sum_map_eq_const {α : Type} (l : List α) (f : α → ℕ) (m : ℕ)
    (h : ∀ a ∈ l, f a = m) : (l.map f).sum = l.length * m := by
  induction l with
  | nil => simp
  | cons a l ih =>
    simp only [List.map_cons, List.sum_cons, List.length_cons]
    rw [h a (List.mem_cons_self _ _),
      ih (fun x hx => h x (List.mem_cons_of_mem _ hx))]
    ring

lemma sum_take_batchSizesAux (b : ℕ) (hb : 0 < b) :
    ∀ fuel n m, n ≤ fuel →
      ((batchSizesAux b fuel n).take m).sum = min (m * b) n := by
  intro fuel
  induction fuel with
  | zero =>
    intro n m hn
    have : n = 0 := by omega
    subst this
    simp [batchSizesAux]
  | succ fuel ih =>
    intro n m hn
    by_cases hpos : 0 < n
    · rw [batchSizesAux, if_pos hpos]
      cases m with
      | zero => simp
      | succ m2 =>
        rw [List.take_succ_cons, List.sum_cons, ih (n - b) m2 (by omega)]
        have hmul : (m2 + 1) * b = m2 * b + b := by ring
        rw [hmul]
        generalize m2 * b = c
        omega
    · have : n = 0 := by omega
      subst this
      simp [batchSizesAux]

lemma sum_take_batchSizes (b : ℕ) (hb : 0 < b) (n m : ℕ) :
    ((batchSizes n b).take m).sum = min (m * b) n := by
  rw [batchSizes, if_pos hb]
  exact sum_take_batchSizesAux b hb n n m (le_refl n)

/-
Claim theorems.
-/

/-- C1: for every non-empty list of client results and every encrypted
(selected) layer, the aggregated global model satisfies
new[layer] = old[layer] + (sum over clients of the sanitised, clipped delta
client_params[layer] - old_global[layer]) / num_clients, where num_clients
is the number of results; the equality holds within the scheme tolerance
(the fixed-point encoding at scale 2^40 is the only approximation of the
CKKS model). -/
theorem aggregate_he_adds_mean_clipped_delta
    (keys selected : List String) (global : Layers)
    (results : List (Layers × ℕ)) (hne : results ≠ []) (hNd : keys.Nodup)
    (hshape : ∀ r ∈ results, ∀ i, i < keys.length →
      (r.1.getD i []).length = (global.getD i []).length) :
    ∃ new, aggregate_he keys selected global results = some new ∧
      new.length = keys.length ∧
      ∀ i, i < keys.length → selected.contains (keys.getD i "") = true →
        ∀ j, j < (global.getD i []).length →
          |(new.getD i []).getD j 0
            - ((global.getD i []).getD j 0
              + (results.map (fun r => serverPrep (.fin
                  ((r.1.getD i []).getD j 0 - (global.getD i []).getD j 0)))).sum
                / (results.length : ℚ))| ≤ epsTol := by
  obtain ⟨new, hagg, hlen, hsel, _⟩ :=
    aggregate_he_spec keys selected global results hne hNd hshape
  refine ⟨new, hagg, hlen, fun i hi hselk j hj => ?_⟩
  rw [hsel i hi hselk j hj]
  have hxs : (results.map (fun r => serverPrep (.fin
      ((r.1.getD i []).getD j 0 - (global.getD i []).getD j 0)))) ≠ [] := by
    simpa using hne
  have h := he_mean_err _ hxs
  rw [List.map_map, List.length_map] at h
  have heq : ∀ g0 A B : ℚ, g0 + A - (g0 + B) = A - B := by
    intro g0 A B
    ring
  rw [heq]
  exact h

/-- Witness for C1 at the spec's end-to-end HE scenario: two clients with
encrypted-layer deltas +2 and -1 from a global value of 5; the aggregated
value is exactly 11/2 = 5.5, within the tolerance. -/
theorem aggregate_he_adds_mean_clipped_delta_witness :
    (([([[7]], 1), ([[4]], 1)] : List (Layers × ℕ)) ≠ []) ∧
    (["w"] : List String).Nodup ∧
    (∀ r ∈ ([([[7]], 1), ([[4]], 1)] : List (Layers × ℕ)),
      ∀ i, i < (["w"] : List String).length →
        (r.1.getD i []).length = (([[5]] : Layers).getD i []).length) ∧
    aggregate_he ["w"] ["w"] [[5]] [([[7]], 1), ([[4]], 1)] = some [[11 / 2]] ∧
    (∃ new, aggregate_he ["w"] ["w"] [[5]] [([[7]], 1), ([[4]], 1)] = some new ∧
      new.length = (["w"] : List String).length ∧
      ∀ i, i < (["w"] : List String).length →
        (["w"] : List String).contains ((["w"] : List String).getD i "") = true →
        ∀ j, j < (([[5]] : Layers).getD i []).length →
          |(new.getD i []).getD j 0
            - ((([[5]] : Layers).getD i []).getD j 0
              + (([([[7]], 1), ([[4]], 1)] : List (Layers × ℕ)).map (fun r =>
                  serverPrep (.fin ((r.1.getD i []).getD j 0
                    - (([[5]] : Layers).getD i []).getD j 0)))).sum
                / (([([[7]], 1), ([[4]], 1)] : List (Layers × ℕ)).length : ℚ))|
            ≤ epsTol) := by
  refine ⟨by decide, by decide, by decide, ?_, ?_⟩
  · simp [aggregate_he, clientEncDeltas, selIdxOf, optMapM, npSubDelta, sanDelta,
      serverPrep, npClip, nanToNum, clipQ, ckksEncrypt, encodeInt, encrypted_sum,
      sumOverRest, dlookup, ckksAdd, ckksDecrypt, heCommit, heBase, plainLayerAvg,
      vadd, vscale, vzeros, heScale, HE_SCALE_BITS, round_eq,
      List.range_succ, List.range_zero]
    norm_num
  · exact aggregate_he_adds_mean_clipped_delta ["w"] ["w"] [[5]]
      [([[7]], 1), ([[4]], 1)] (by decide) (by decide) (by decide)

/-- C2: each plaintext (non-selected) layer of the aggregated model equals
the sample-count-weighted average sum(tensor[layer] * count) / sum(count),
both in _aggregate_plain and in the non-selected branch of _aggregate_he. -/
theorem plain_layers_weighted_average :
    (∀ (r0 : Layers × ℕ) (rs : List (Layers × ℕ)),
      ∀ i, i < r0.1.length →
      ∀ L, (∀ r ∈ r0 :: rs, (r.1.getD i []).length = L) →
      ∀ j, j < L →
      ((aggregate_plain (r0 :: rs)).getD i []).getD j 0
        = ((r0 :: rs).map (fun r => (r.1.getD i []).getD j 0 * (r.2 : ℚ))).sum
            / ((((r0 :: rs).map (fun r => r.2)).sum : ℕ) : ℚ)) ∧
    (∀ (keys selected : List String) (global : Layers)
        (results : List (Layers × ℕ)), results ≠ [] → keys.Nodup →
      (∀ r ∈ results, ∀ i, i < keys.length →
        (r.1.getD i []).length = (global.getD i []).length) →
      ∀ new, aggregate_he keys selected global results = some new →
      ∀ i, i < keys.length → selected.contains (keys.getD i "") = false →
      ∀ j, j < (global.getD i []).length →
      (new.getD i []).getD j 0
        = (results.map (fun r => (r.1.getD i []).getD j 0 * (r.2 : ℚ))).sum
            / (((results.map (fun r => r.2)).sum : ℕ) : ℚ)) := by
  constructor
  · intro r0 rs i hi L hL j hj
    have hpl := plainLayerAvg_spec (r0 :: rs)
      ((((r0 :: rs).map (fun r => r.2)).sum : ℕ) : ℚ)
      ((r0 :: rs).headD ([], 0)).1 i L
      (hL r0 (List.mem_cons_self _ _)) hL
    have hgl : (aggregate_plain (r0 :: rs)).getD i []
        = plainLayerAvg (r0 :: rs) ((((r0 :: rs).map (fun r => r.2)).sum : ℕ) : ℚ)
            ((r0 :: rs).headD ([], 0)).1 i := by
      have hlt : i < (aggregate_plain (r0 :: rs)).length := by
        simp [aggregate_plain]
        omega
      rw [List.getD_eq_getElem _ _ hlt]
      simp [aggregate_plain]
    rw [hgl, hpl.2 j hj]
    exact sum_mul_div (r0 :: rs) (fun r => (r.1.getD i []).getD j 0)
      (fun r => (r.2 : ℚ)) _
  · intro keys selected global results hne hNd hshape new hnew i hi hsel j hj
    obtain ⟨new2, hagg2, _, _, hplain⟩ :=
      aggregate_he_spec keys selected global results hne hNd hshape
    rw [hnew] at hagg2
    have hne2 : new2 = new := (Option.some.inj hagg2).symm
    subst hne2
    rw [hplain i hi hsel j hj]
    exact sum_mul_div results (fun r => (r.1.getD i []).getD j 0)
      (fun r => (r.2 : ℚ)) _

/-- Witness for C2 at the spec's end-to-end scenario: two clients with
sample counts 100 and 300 and plaintext layer values 1.0 and 3.0; the
weighted average is exactly 5/2 = 2.5. -/
theorem plain_layers_weighted_average_witness :
    (0 : ℕ) < (([[1]], 100) : Layers × ℕ).1.length ∧
    (∀ r ∈ [(([[1]], 100) : Layers × ℕ), ([[3]], 300)], (r.1.getD 0 []).length = 1) ∧
    ((aggregate_plain [([[1]], 100), ([[3]], 300)]).getD 0 []).getD 0 0
      = ([(([[1]], 100) : Layers × ℕ), ([[3]], 300)].map
          (fun r => (r.1.getD 0 []).getD 0 0 * (r.2 : ℚ))).sum
        / ((([(([[1]], 100) : Layers × ℕ), ([[3]], 300)].map (fun r => r.2)).sum : ℕ) : ℚ) ∧
    ((aggregate_plain [([[1]], 100), ([[3]], 300)]).getD 0 []).getD 0 0 = 5 / 2 := by
  refine ⟨by decide, by decide, ?_, ?_⟩
  · exact plain_layers_weighted_average.1 ([[1]], 100) [([[3]], 300)]
      0 (by decide) 1 (by decide) 0 (by decide)
  · simp [aggregate_plain, plainLayerAvg, vadd, vscale, vzeros,
      List.range_succ, List.range_zero]
    norm_num

lemma clipQ_eq_self (x : ℚ) (h1 : -10 ≤ x) (h2 : x ≤ 10) : clipQ x = x := by
  unfold clipQ
  rw [min_eq_right h2, max_eq_right h1]

lemma encrypted_sum_single (c0 : CKKSVec) (cs : List CKKSVec) :
    encrypted_sum ([("w", c0)] :: cs.map (fun c => [("w", c)]))
      = some [("w", cs.foldl ckksAdd c0)] := by
  have hsum : sumOverRest "w" c0 (cs.map (fun c => [("w", c)]))
      = some (cs.foldl ckksAdd c0) := by
    have hcond : ∀ u ∈ cs.map (fun c => [("w", c)]),
        dlookup "w" u = some ((dlookup "w" u).getD c0) := by
      intro u hu
      rcases List.mem_map.mp hu with ⟨c, hc, rfl⟩
      rw [dlookup_cons]
      simp
    rw [sumOverRest_eq "w" (fun u => (dlookup "w" u).getD c0) _ c0 hcond]
    congr 1
    rw [List.foldl_map]
    apply foldl_congr_mem
    intro c hc b
    rw [dlookup_cons]
    simp
  simp [encrypted_sum, optMapM, hsum]

lemma decrypt_update_single (c : CKKSVec) (L n : ℕ) :
    decrypt_update [("w", c)] [("w", L)] n
      = some [("w", ((ckksDecrypt c).take L).map (fun q => q / (n : ℚ)))] := by
  simp [decrypt_update, optMapM, dlookup_cons]

lemma count_err_le_epsTol (n : ℕ) (hn : n ≤ 1000000) :
    (n : ℚ) / (2 * heScale) ≤ epsTol := by
  have h1 : (n : ℚ) / (2 * heScale) ≤ (1000000 : ℚ) / (2 * heScale) := by
    gcongr
    · have := heScale_pos
      linarith
    · exact_mod_cast hn
  refine le_trans h1 ?_
  norm_num [heScale, HE_SCALE_BITS, epsTol]

/-- C3: homomorphism round-trip. Decrypting the homomorphic sum of the
encryptions of clipped equal-shape deltas yields their sum within the fixed
tolerance (for any number of clients up to 10^6); with a single input this
specialises to the codec contract
decrypt_and_reshape(encode_and_encrypt(t)) ≈ clamp(t), stated here for
every tensor t via encrypt_update / decrypt_update. -/
theorem he_roundtrip_sum :
    (∀ (d0 : Vec) (ds : List Vec) (L : ℕ),
      (∀ d ∈ d0 :: ds, d.length = L) →
      (∀ d ∈ d0 :: ds, ∀ x ∈ d, -10 ≤ x ∧ x ≤ 10) →
      (d0 :: ds).length ≤ 1000000 →
      ∃ S, encrypted_sum ((d0 :: ds).map (fun d =>
          (encrypt_update [("w", d.map FVal.fin)]).1)) = some [("w", S)] ∧
        ∃ v, decrypt_update [("w", S)] [("w", L)] 1 = some [("w", v)] ∧
          ∀ j, j < L →
            |v.getD j 0 - ((d0 :: ds).map (fun d => d.getD j 0)).sum| ≤ epsTol) ∧
    (∀ t : List FVal, ∃ v,
      decrypt_update (encrypt_update [("w", t)]).1 (encrypt_update [("w", t)]).2 1
        = some [("w", v)] ∧
      ∀ j, j < t.length →
        |v.getD j 0 - codecPrep (t.getD j FVal.nan)| ≤ epsTol) := by
  constructor
  · intro d0 ds L hlen hbd hn
    have hprep : ∀ d ∈ d0 :: ds, (d.map FVal.fin).map codecPrep = d := by
      intro d hd
      rw [List.map_map]
      have : d.map (codecPrep ∘ FVal.fin) = d.map id := by
        apply List.map_congr_left
        intro x hx
        have hb := hbd d hd x hx
        simpa [Function.comp, codecPrep_fin] using clipQ_eq_self x hb.1 hb.2
      rw [this, List.map_id]
    have hdicts : (d0 :: ds).map (fun d => (encrypt_update [("w", d.map FVal.fin)]).1)
        = [("w", ckksEncrypt d0)] :: (ds.map ckksEncrypt).map (fun c => [("w", c)]) := by
      rw [List.map_cons]
      congr 1
      · show [("w", ckksEncrypt ((d0.map FVal.fin).map codecPrep))] = _
        rw [hprep d0 (List.mem_cons_self _ _)]
      · rw [List.map_map]
        apply List.map_congr_left
        intro d hd
        show [("w", ckksEncrypt ((d.map FVal.fin).map codecPrep))] = _
        rw [hprep d (List.mem_cons_of_mem _ hd)]
        rfl
    rw [hdicts, encrypted_sum_single]
    refine ⟨_, rfl, _, decrypt_update_single _ _ _, fun j hj => ?_⟩
    have hfold : (ds.map ckksEncrypt).foldl ckksAdd (ckksEncrypt d0)
        = ds.foldl (fun a d => ckksAdd a (ckksEncrypt d)) (ckksEncrypt d0) := by
      rw [List.foldl_map]
    have hspec := foldl_ckksAdd_spec ckksEncrypt L ds (ckksEncrypt d0)
      (by rw [length_ckksEncrypt, hlen d0 (List.mem_cons_self _ _)])
      (fun d hd => by rw [length_ckksEncrypt, hlen d (List.mem_cons_of_mem _ hd)])
    rw [hfold]
    have htake : (ckksDecrypt (ds.foldl (fun a d => ckksAdd a (ckksEncrypt d))
          (ckksEncrypt d0))).take L
        = ckksDecrypt (ds.foldl (fun a d => ckksAdd a (ckksEncrypt d))
            (ckksEncrypt d0)) := by
      apply List.take_of_length_le
      rw [length_ckksDecrypt, hspec.1]
    rw [htake]
    have hjd : j < (ckksDecrypt (ds.foldl (fun a d => ckksAdd a (ckksEncrypt d))
        (ckksEncrypt d0))).length := by
      rw [length_ckksDecrypt, hspec.1]
      omega
    have hjm : j < ((ckksDecrypt (ds.foldl (fun a d => ckksAdd a (ckksEncrypt d))
        (ckksEncrypt d0))).map (fun q => q / ((1 : ℕ) : ℚ))).length := by
      rw [List.length_map]
      omega
    rw [List.getD_eq_getElem _ _ hjm, List.getElem_map,
      ← List.getD_eq_getElem _ 0 hjd,
      getD_ckksDecrypt _ j (by rw [hspec.1]; omega), hspec.2 j hj]
    have hsum : (ckksEncrypt d0).data.getD j 0
          + (ds.map (fun d => (ckksEncrypt d).data.getD j 0)).sum
        = (((d0 :: ds).map (fun d => d.getD j 0)).map encodeInt).sum := by
      rw [List.map_map, List.map_cons, List.sum_cons]
      rw [getD_ckksEncrypt _ j (by rw [hlen d0 (List.mem_cons_self _ _)]; omega)]
      congr 1
      apply congrArg
      apply List.map_congr_left
      intro d hd
      exact getD_ckksEncrypt _ j (by rw [hlen d (List.mem_cons_of_mem _ hd)]; omega)
    rw [hsum]
    have herr := abs_sum_encode_err ((d0 :: ds).map (fun d => d.getD j 0))
    rw [List.length_map] at herr
    have hcast : ((1 : ℕ) : ℚ) = 1 := Nat.cast_one
    rw [hcast, div_one]
    exact le_trans herr (count_err_le_epsTol _ hn)
  · intro t
    have henc : (encrypt_update [("w", t)]).1
        = [("w", ckksEncrypt (t.map codecPrep))] := rfl
    have hshp : (encrypt_update [("w", t)]).2 = [("w", t.length)] := rfl
    rw [henc, hshp, decrypt_update_single]
    refine ⟨_, rfl, fun j hj => ?_⟩
    have hdlen : (ckksDecrypt (ckksEncrypt (t.map codecPrep))).length = t.length := by
      rw [length_ckksDecrypt, length_ckksEncrypt, List.length_map]
    have htake : (ckksDecrypt (ckksEncrypt (t.map codecPrep))).take t.length
        = ckksDecrypt (ckksEncrypt (t.map codecPrep)) := by
      apply List.take_of_length_le
      omega
    rw [htake]
    have hjm : j < ((ckksDecrypt (ckksEncrypt (t.map codecPrep))).map
        (fun q => q / ((1 : ℕ) : ℚ))).length := by
      rw [List.length_map]
      omega
    rw [List.getD_eq_getElem _ _ hjm, List.getElem_map,
      ← List.getD_eq_getElem _ 0 (by omega : j < (ckksDecrypt (ckksEncrypt (t.map codecPrep))).length),
      getD_ckksDecrypt _ j (by rw [length_ckksEncrypt, List.length_map]; omega),
      getD_ckksEncrypt _ j (by rw [List.length_map]; omega)]
    have hmapj : (t.map codecPrep).getD j 0 = codecPrep (t.getD j FVal.nan) := by
      rw [List.getD_eq_getElem _ _ (by rw [List.length_map]; omega),
        List.getD_eq_getElem _ _ (by omega : j < t.length)]
      exact List.getElem_map _
    rw [hmapj]
    have hcast : ((1 : ℕ) : ℚ) = 1 := Nat.cast_one
    rw [hcast, div_one]
    exact le_trans (abs_encode_err _) epsTol_bound

/-- Witness for C3: two clipped one-element deltas 2 and -1; the decrypted
homomorphic sum is within tolerance of 1, and the codec contract holds at
the tensor [50, nan] (clamped to [10, 0]). -/
theorem he_roundtrip_sum_witness :
    (∀ d ∈ [([2] : Vec), [-1]], d.length = 1) ∧
    (∀ d ∈ [([2] : Vec), [-1]], ∀ x ∈ d, -10 ≤ x ∧ x ≤ 10) ∧
    ([([2] : Vec), [-1]].length ≤ 1000000) ∧
    (∃ S, encrypted_sum ([([2] : Vec), [-1]].map (fun d =>
        (encrypt_update [("w", d.map FVal.fin)]).1)) = some [("w", S)] ∧
      ∃ v, decrypt_update [("w", S)] [("w", 1)] 1 = some [("w", v)] ∧
        ∀ j, j < 1 →
          |v.getD j 0 - (([([2] : Vec), [-1]]).map (fun d => d.getD j 0)).sum| ≤ epsTol) ∧
    (∃ v, decrypt_update (encrypt_update [("w", [FVal.fin 50, FVal.nan])]).1
        (encrypt_update [("w", [FVal.fin 50, FVal.nan])]).2 1 = some [("w", v)] ∧
      ∀ j, j < ([FVal.fin 50, FVal.nan] : List FVal).length →
        |v.getD j 0 - codecPrep (([FVal.fin 50, FVal.nan] : List FVal).getD j FVal.nan)|
          ≤ epsTol) := by
  have hlen2 : ∀ d ∈ [([2] : Vec), [-1]], d.length = 1 := by
    intro d hd
    rcases List.mem_cons.mp hd with rfl | hd2
    · rfl
    · rw [List.mem_singleton] at hd2
      subst hd2
      rfl
  have hbd2 : ∀ d ∈ [([2] : Vec), [-1]], ∀ x ∈ d, -10 ≤ x ∧ x ≤ 10 := by
    intro d hd x hx
    rcases List.mem_cons.mp hd with rfl | hd2
    · rw [List.mem_singleton] at hx
      subst hx
      norm_num
    · rw [List.mem_singleton] at hd2
      subst hd2
      rw [List.mem_singleton] at hx
      subst hx
      norm_num
  exact ⟨hlen2, hbd2, by decide,
    he_roundtrip_sum.1 [2] [[-1]] 1 hlen2 hbd2 (by decide),
    he_roundtrip_sum.2 [FVal.fin 50, FVal.nan]⟩

/-- Counterexample to C4: with two clients of sample counts 100 and 300,
clipped deltas +2 and -1 from a global value of 5, the encrypted-layer
aggregation yields exactly 11/2 (it divides the delta sum uniformly by the
client count), while the sample-count-weighted average of the same clipped
deltas gives 5 + (100·2 + 300·(-1))/400 = 19/4; the two differ by 3/4,
far beyond the tolerance. -/
theorem he_weighted_average_refinement_fails :
    aggregate_he ["w"] ["w"] [[5]] [([[7]], 100), ([[4]], 300)] = some [[11 / 2]] ∧
    ¬ |(11 / 2 : ℚ) - ((5 : ℚ)
        + specWeightedDeltaAvg
            [(sanDelta [7] [5], 100), (sanDelta [4] [5], 300)] 0)| ≤ epsTol := by
  constructor
  · simp [aggregate_he, clientEncDeltas, selIdxOf, optMapM, npSubDelta, sanDelta,
      serverPrep, npClip, nanToNum, clipQ, ckksEncrypt, encodeInt, encrypted_sum,
      sumOverRest, dlookup, ckksAdd, ckksDecrypt, heCommit, heBase, plainLayerAvg,
      vadd, vscale, vzeros, heScale, HE_SCALE_BITS, round_eq,
      List.range_succ, List.range_zero]
    norm_num
  · simp only [specWeightedDeltaAvg, sanDelta, serverPrep, npClip, nanToNum,
      clipQ, epsTol, List.map_cons, List.map_nil, List.sum_cons, List.sum_nil]
    norm_num
    rw [abs_of_pos (by norm_num : (0 : ℚ) < 3 / 4)]
    norm_num

/-- C4 amended: aggregating an encrypted layer produces, within the scheme
tolerance, the uniform (equally-weighted) mean of the clipped per-client
deltas added to the global layer, not the sample-count-weighted mean; the
two coincide exactly when all contributing clients report the same positive
sample count. -/
theorem he_matches_uniform_delta_average
    (keys selected : List String) (global : Layers)
    (results : List (Layers × ℕ)) (hne : results ≠ []) (hNd : keys.Nodup)
    (hshape : ∀ r ∈ results, ∀ i, i < keys.length →
      (r.1.getD i []).length = (global.getD i []).length) :
    (∃ new, aggregate_he keys selected global results = some new ∧
      ∀ i, i < keys.length → selected.contains (keys.getD i "") = true →
        ∀ j, j < (global.getD i []).length →
          |(new.getD i []).getD j 0
            - ((global.getD i []).getD j 0
              + specUniformDeltaAvg (results.map (fun r =>
                  (sanDelta (r.1.getD i []) (global.getD i []), r.2))) j)|
            ≤ epsTol) ∧
    (∀ (ds : List (Vec × ℕ)) (m j : ℕ), 0 < m → (∀ d ∈ ds, d.2 = m) →
      specWeightedDeltaAvg ds j = specUniformDeltaAvg ds j) := by
  constructor
  · obtain ⟨new, hagg, _, hsel, _⟩ :=
      aggregate_he_spec keys selected global results hne hNd hshape
    refine ⟨new, hagg, fun i hi hselk j hj => ?_⟩
    rw [hsel i hi hselk j hj]
    have huni : specUniformDeltaAvg (results.map (fun r =>
          (sanDelta (r.1.getD i []) (global.getD i []), r.2))) j
        = (results.map (fun r => serverPrep (.fin
            ((r.1.getD i []).getD j 0 - (global.getD i []).getD j 0)))).sum
          / (results.length : ℚ) := by
      unfold specUniformDeltaAvg
      rw [List.map_map, List.length_map]
      congr 1
      apply congrArg
      apply List.map_congr_left
      intro r hr
      have hp : j < (r.1.getD i []).length := by
        rw [hshape r hr i hi]
        omega
      exact getD_sanDelta _ _ j hp (by omega)
    rw [huni]
    have hxs : (results.map (fun r => serverPrep (.fin
        ((r.1.getD i []).getD j 0 - (global.getD i []).getD j 0)))) ≠ [] := by
      simpa using hne
    have h := he_mean_err _ hxs
    rw [List.map_map, List.length_map] at h
    have heq : ∀ g0 A B : ℚ, g0 + A - (g0 + B) = A - B := by
      intro g0 A B
      ring
    rw [heq]
    exact h
  · intro ds m j hm hconst
    rcases List.eq_nil_or_concat ds with rfl | _
    · simp [specWeightedDeltaAvg, specUniformDeltaAvg]
    · have hm0 : ((m : ℚ)) ≠ 0 := by
        exact_mod_cast hm.ne'
      unfold specWeightedDeltaAvg specUniformDeltaAvg
      have hnum : (ds.map (fun d => d.1.getD j 0 * (d.2 : ℚ))).sum
          = (ds.map (fun d => d.1.getD j 0)).sum * (m : ℚ) := by
        rw [← List.sum_map_mul_right]
        apply congrArg
        apply List.map_congr_left
        intro d hd
        rw [hconst d hd]
      have hden : (((ds.map (fun d => d.2)).sum : ℕ) : ℚ)
          = (ds.length : ℚ) * (m : ℚ) := by
        rw [sum_map_eq_const ds (fun d => d.2) m hconst]
        push_cast
        ring
      rw [hnum, hden, mul_div_mul_right _ _ hm0]

/-- Witness for C4: the amended claim at two equally-weighted clients with
deltas +2 and -1 from a global value 5, and the weighted/uniform
coincidence at equal sample counts 100. -/
theorem he_matches_uniform_delta_average_witness :
    (([([[7]], 1), ([[4]], 1)] : List (Layers × ℕ)) ≠ []) ∧
    (["w"] : List String).Nodup ∧
    (∀ r ∈ ([([[7]], 1), ([[4]], 1)] : List (Layers × ℕ)),
      ∀ i, i < (["w"] : List String).length →
        (r.1.getD i []).length = (([[5]] : Layers).getD i []).length) ∧
    (0 : ℕ) < 100 ∧ (∀ d ∈ [(([2] : Vec), 100), ([-1], 100)], d.2 = 100) ∧
    (∃ new, aggregate_he ["w"] ["w"] [[5]] [([[7]], 1), ([[4]], 1)] = some new ∧
      ∀ i, i < (["w"] : List String).length →
        (["w"] : List String).contains ((["w"] : List String).getD i "") = true →
        ∀ j, j < (([[5]] : Layers).getD i []).length →
          |(new.getD i []).getD j 0
            - ((([[5]] : Layers).getD i []).getD j 0
              + specUniformDeltaAvg (([([[7]], 1), ([[4]], 1)] : List (Layers × ℕ)).map
                  (fun r => (sanDelta (r.1.getD i []) (([[5]] : Layers).getD i []), r.2))) j)|
            ≤ epsTol) ∧
    specWeightedDeltaAvg [(([2] : Vec), 100), ([-1], 100)] 0
      = specUniformDeltaAvg [(([2] : Vec), 100), ([-1], 100)] 0 := by
  have h := he_matches_uniform_delta_average ["w"] ["w"] [[5]]
    [([[7]], 1), ([[4]], 1)] (by decide) (by decide) (by decide)
  refine ⟨by decide, by decide, by decide, by decide, ?_, h.1, ?_⟩
  · intro d hd
    rcases List.mem_cons.mp hd with rfl | hd2
    · rfl
    · rw [List.mem_singleton] at hd2
      subst hd2
      rfl
  · apply h.2 [(([2] : Vec), 100), ([-1], 100)] 100 0 (by decide)
    intro d hd
    rcases List.mem_cons.mp hd with rfl | hd2
    · rfl
    · rw [List.mem_singleton] at hd2
      subst hd2
      rfl

lemma sanDelta_mem_bounds (p g : Vec) : ∀ x ∈ sanDelta p g, -10 ≤ x ∧ x ≤ 10 := by
  intro x hx
  rcases List.mem_iff_getElem.mp hx with ⟨k, hk, rfl⟩
  have hkp : k < p.length := by
    have hk2 := hk
    rw [sanDelta, List.length_zipWith] at hk2
    omega
  have hkg : k < g.length := by
    have hk2 := hk
    rw [sanDelta, List.length_zipWith] at hk2
    omega
  have hel : (sanDelta p g).get ⟨k, hk⟩
      = serverPrep (.fin (p.get ⟨k, hkp⟩ - g.get ⟨k, hkg⟩)) := by
    simp [sanDelta]
  rw [List.get_eq_getElem] at hel
  rw [hel]
  exact serverPrep_bounds _

/-- C5: every numeric value passed to encryption lies in the closed bound
[-10, 10]; in the model such values are rationals, hence finite — no NaN or
infinity is ever encrypted on either path. In addition a delta entry of
magnitude 50 is mapped to exactly the bound before encryption. -/
theorem he_inputs_bounded :
    (∀ v : FVal, -10 ≤ codecPrep v ∧ codecPrep v ≤ 10) ∧
    (∀ v : FVal, -10 ≤ serverPrep v ∧ serverPrep v ≤ 10) ∧
    (∀ p g d, npSubDelta p g = some d → ∀ x ∈ d, -10 ≤ x ∧ x ≤ 10) ∧
    (∀ t : List FVal, ∀ x ∈ t.map codecPrep, -10 ≤ x ∧ x ≤ 10) ∧
    serverPrep (.fin 50) = 10 ∧ codecPrep (.fin 50) = 10 ∧
    serverPrep (.fin (-50)) = -10 := by
  refine ⟨codecPrep_bounds, serverPrep_bounds, ?_, ?_, ?_, ?_, ?_⟩
  · intro p g d hd
    unfold npSubDelta at hd
    by_cases h1 : p.length = g.length
    · rw [if_pos h1] at hd
      have hde : d = sanDelta p g := (Option.some.inj hd).symm
      subst hde
      exact sanDelta_mem_bounds p g
    · rw [if_neg h1] at hd
      by_cases h2 : p.length = 1
      · rw [if_pos h2] at hd
        have hde : d = sanDelta (List.replicate g.length (p.headD 0)) g :=
          (Option.some.inj hd).symm
        subst hde
        exact sanDelta_mem_bounds _ g
      · rw [if_neg h2] at hd
        by_cases h3 : g.length = 1
        · rw [if_pos h3] at hd
          have hde : d = sanDelta p (List.replicate p.length (g.headD 0)) :=
            (Option.some.inj hd).symm
          subst hde
          exact sanDelta_mem_bounds p _
        · rw [if_neg h3] at hd
          exact absurd hd (by simp)
  · intro t x hx
    rcases List.mem_map.mp hx with ⟨v, hv, rfl⟩
    exact codecPrep_bounds v
  · norm_num [serverPrep, npClip, nanToNum, clipQ]
  · norm_num [codecPrep, nanToNum, clipQ]
  · norm_num [serverPrep, npClip, nanToNum, clipQ]

/-- Witness for C5: the delta entry 50 clips to exactly the bound 10 on the
server path, and the resulting vector is inside the bound. -/
theorem he_inputs_bounded_witness :
    npSubDelta [50] [0] = some [10] ∧
    (∀ x ∈ ([10] : Vec), -10 ≤ x ∧ x ≤ 10) := by
  have h1 : npSubDelta [50] [0] = some [10] := by
    norm_num [npSubDelta, sanDelta, serverPrep, npClip, nanToNum, clipQ]
  exact ⟨h1, he_inputs_bounded.2.2.1 [50] [0] [10] h1⟩

/-- Counterexample to C6: on the server aggregation path the clip runs
before the NaN/Inf scrub, so a +Inf delta entry is encrypted as the bound
10, not as 0 as the claim states for every encryption path. -/
theorem server_encrypts_posinf_as_bound :
    serverPrep FVal.inf = 10 ∧ ¬ serverPrep FVal.inf = 0 := by
  constructor <;> norm_num [serverPrep, npClip, nanToNum, clipQ]

/-- C6 amended: the codec helper encrypt_update scrubs non-finite entries
first and then clamps, so +Inf, -Inf and NaN all encrypt as 0 there; the
server aggregation path clamps first and then scrubs, sending +Inf to 10
and -Inf to -10 while NaN still goes to 0; on finite entries the two
orders agree. -/
theorem sanitise_order_differs_per_path :
    codecPrep FVal.inf = 0 ∧ codecPrep FVal.ninf = 0 ∧ codecPrep FVal.nan = 0 ∧
    serverPrep FVal.inf = 10 ∧ serverPrep FVal.ninf = -10 ∧
    serverPrep FVal.nan = 0 ∧
    ∀ q : ℚ, codecPrep (.fin q) = serverPrep (.fin q) := by
  refine ⟨?_, ?_, ?_, ?_, ?_, ?_, fun q => rfl⟩ <;>
    norm_num [codecPrep, serverPrep, npClip, nanToNum, clipQ]

/-- Counterexample to C7: with min_fit_clients = 2 configured, a single
client result is still aggregated — aggregate_fit produces parameters and
commits a changed global model instead of failing the round. -/
theorem single_client_below_quorum_still_aggregated :
    aggregate_fit true ["w"] ["w"] [[0]] [([[4]], 1)] = (some [[4]], [[4]]) ∧
    (([[4]] : Layers) ≠ [[0]]) := by
  constructor
  · simp [aggregate_fit, aggregate_he, clientEncDeltas, selIdxOf, optMapM,
      npSubDelta, sanDelta, serverPrep, npClip, nanToNum, clipQ, ckksEncrypt,
      encodeInt, encrypted_sum, sumOverRest, dlookup, ckksAdd, ckksDecrypt,
      heCommit, heBase, plainLayerAvg, vadd, vscale, vzeros, heScale,
      HE_SCALE_BITS, round_eq, List.range_succ, List.range_zero]
    norm_num
  · intro hcon
    have : ([4] : Vec) = [0] := by
      injection hcon
    have h4 : (4 : ℚ) = 0 := by
      injection this
    norm_num at h4

/-- C7 amended: the aggregation step produces no parameters and leaves the
global model unchanged exactly in the no-results case (or when the HE
aggregation itself fails); any non-empty result list, even a single client
below the configured min_fit_clients, is aggregated and committed. -/
theorem aggregate_fit_fails_only_without_results :
    (∀ (u : Bool) (keys selected : List String) (global : Layers),
      aggregate_fit u keys selected global [] = (none, global)) ∧
    (∀ (keys selected : List String) (global : Layers) (r : Layers × ℕ)
        (rs : List (Layers × ℕ)),
      aggregate_fit false keys selected global (r :: rs)
        = (some (aggregate_plain (r :: rs)), aggregate_plain (r :: rs))) ∧
    (∀ (keys selected : List String) (global : Layers) (r : Layers × ℕ)
        (rs : List (Layers × ℕ)) (new : Layers),
      aggregate_he keys selected global (r :: rs) = some new →
      aggregate_fit true keys selected global (r :: rs) = (some new, new)) := by
  refine ⟨fun u k s g => rfl, fun k s g r rs => rfl, fun k s g r rs new h => ?_⟩
  simp [aggregate_fit, h]

/-- Witness for C7: the amended claim at a single-client round that the
code aggregates and commits. -/
theorem aggregate_fit_fails_only_without_results_witness :
    aggregate_he ["w"] ["w"] [[0]] [([[4]], 1)] = some [[4]] ∧
    aggregate_fit true ["w"] ["w"] [[0]] [([[4]], 1)] = (some [[4]], [[4]]) := by
  have h : aggregate_he ["w"] ["w"] [[0]] [([[4]], 1)] = some [[4]] := by
    simp [aggregate_he, clientEncDeltas, selIdxOf, optMapM, npSubDelta, sanDelta,
      serverPrep, npClip, nanToNum, clipQ, ckksEncrypt, encodeInt, encrypted_sum,
      sumOverRest, dlookup, ckksAdd, ckksDecrypt, heCommit, heBase, plainLayerAvg,
      vadd, vscale, vzeros, heScale, HE_SCALE_BITS, round_eq,
      List.range_succ, List.range_zero]
    norm_num
  exact ⟨h, aggregate_fit_fails_only_without_results.2.2 ["w"] ["w"] [[0]]
    ([[4]], 1) [] [[4]] h⟩

/-- Counterexample to C8: two clients, the second with a corrupt
contribution for the encrypted layer whose shape (3 elements) is not
broadcastable against the global layer's (2 elements); instead of dropping
that client and averaging the remaining valid delta over one client, the
aggregation aborts — no parameters are produced and the global model stays
unchanged. A size-1 layer, by contrast, broadcasts and is aggregated
normally: [5] against global [0, 0] stretches to deltas [5, 5] and the
round commits [[3, 3]]. -/
theorem client_cipher_failure_drops_round :
    aggregate_he ["w"] ["w"] [[0, 0]] [([[1, 1]], 1), ([[5, 5, 5]], 1)] = none ∧
    aggregate_fit true ["w"] ["w"] [[0, 0]] [([[1, 1]], 1), ([[5, 5, 5]], 1)]
      = (none, [[0, 0]]) ∧
    aggregate_he ["w"] ["w"] [[0, 0]] [([[1, 1]], 1), ([[5]], 1)]
      = some [[3, 3]] := by
  have h : aggregate_he ["w"] ["w"] [[0, 0]] [([[1, 1]], 1), ([[5, 5, 5]], 1)]
      = none := by
    simp [aggregate_he, clientEncDeltas, selIdxOf, optMapM, npSubDelta, sanDelta,
      serverPrep, npClip, nanToNum, clipQ, ckksEncrypt, encodeInt,
      List.range_succ, List.range_zero]
  refine ⟨h, by simp [aggregate_fit, h], ?_⟩
  simp [aggregate_he, clientEncDeltas, selIdxOf, optMapM, npSubDelta, sanDelta,
    serverPrep, npClip, nanToNum, clipQ, ckksEncrypt, encodeInt, encrypted_sum,
    sumOverRest, dlookup, ckksAdd, ckksDecrypt, heCommit, heBase, plainLayerAvg,
    vadd, vscale, vzeros, heScale, HE_SCALE_BITS, round_eq,
    List.range_succ, List.range_zero]
  norm_num

/-- C8 amended: a non-broadcastable shape mismatch (lengths differ and
neither is 1) for any client on any selected layer aborts the entire HE
aggregation: the failing client is not dropped, no parameters are produced
and the global model is left unchanged; the divisor of the decrypted sum,
when all clients succeed, is always the total number of results. -/
theorem cipher_failure_aborts_aggregation
    (keys selected : List String) (global : Layers)
    (results : List (Layers × ℕ))
    (h : ∃ r ∈ results, ∃ i ∈ selIdxOf keys selected,
      (r.1.getD i []).length ≠ (global.getD i []).length ∧
      (r.1.getD i []).length ≠ 1 ∧ (global.getD i []).length ≠ 1) :
    aggregate_he keys selected global results = none ∧
    aggregate_fit true keys selected global results = (none, global) := by
  obtain ⟨r, hr, i, hi, hlen, hp1, hg1⟩ := h
  have hclient : clientEncDeltas keys selected global r.1 = none := by
    apply optMapM_none
    refine ⟨i, hi, ?_⟩
    unfold npSubDelta
    rw [if_neg hlen, if_neg hp1, if_neg hg1]
    rfl
  have hOM : optMapM (fun r2 => clientEncDeltas keys selected global r2.1)
      results = none :=
    optMapM_none _ _ ⟨r, hr, hclient⟩
  have hHE : aggregate_he keys selected global results = none := by
    simp [aggregate_he, hOM]
  refine ⟨hHE, ?_⟩
  have hne : results.isEmpty = false := by
    cases results with
    | nil => simp at hr
    | cons a l => rfl
  simp [aggregate_fit, hne, hHE]

/-- Witness for C8: the amended claim at the concrete corrupt-client round
with a non-broadcastable 3-element contribution against a 2-element global
layer. -/
theorem cipher_failure_aborts_aggregation_witness :
    (∃ r ∈ ([([[1, 1]], 1), ([[5, 5, 5]], 1)] : List (Layers × ℕ)),
      ∃ i ∈ selIdxOf ["w"] ["w"],
        (r.1.getD i []).length ≠ (([[0, 0]] : Layers).getD i []).length ∧
        (r.1.getD i []).length ≠ 1 ∧ (([[0, 0]] : Layers).getD i []).length ≠ 1) ∧
    (aggregate_he ["w"] ["w"] [[0, 0]] [([[1, 1]], 1), ([[5, 5, 5]], 1)] = none ∧
      aggregate_fit true ["w"] ["w"] [[0, 0]] [([[1, 1]], 1), ([[5, 5, 5]], 1)]
        = (none, [[0, 0]])) := by
  have hex : ∃ r ∈ ([([[1, 1]], 1), ([[5, 5, 5]], 1)] : List (Layers × ℕ)),
      ∃ i ∈ selIdxOf ["w"] ["w"],
        (r.1.getD i []).length ≠ (([[0, 0]] : Layers).getD i []).length ∧
        (r.1.getD i []).length ≠ 1 ∧ (([[0, 0]] : Layers).getD i []).length ≠ 1 := by
    refine ⟨([[5, 5, 5]], 1), List.mem_cons_of_mem _ (List.mem_cons_self _ _),
      0, ?_, ?_, ?_, ?_⟩
    · decide
    · decide
    · decide
    · decide
  exact ⟨hex, cipher_failure_aborts_aggregation ["w"] ["w"] [[0, 0]]
    [([[1, 1]], 1), ([[5, 5, 5]], 1)] hex⟩

/-- Counterexample to C9: a client with 10000 samples, batch size 128, one
epoch and a 50-batch cap consumes 50·128 = 6400 samples during training,
but fit returns the full dataset size 10000 as the Flower sample count —
the consumed count appears only inside the metrics dict. -/
theorem fit_returns_dataset_size_not_used_count :
    (clientFit 10000 128 1 50).numExamples = 10000 ∧
    (clientFit 10000 128 1 50).metricsNumSamples = 6400 ∧
    (clientFit 10000 128 1 50).numExamples
      ≠ (clientFit 10000 128 1 50).metricsNumSamples := by
  refine ⟨rfl, by decide, by decide⟩

/-- C9 amended: fit returns the client's full dataset size as the Flower
num_examples value rather than the count actually consumed; the consumed
count, epochs × min(max_batches · batch_size, dataset size), is only
reported inside the metrics dict. -/
theorem fit_sample_accounting (N B E M : ℕ) (hB : 0 < B) :
    (clientFit N B E M).numExamples = N ∧
    (clientFit N B E M).metricsNumSamples = E * min (M * B) N := by
  refine ⟨rfl, ?_⟩
  show localTrainNumSamples (batchSizes N B) E M = E * min (M * B) N
  unfold localTrainNumSamples
  rw [sum_take_batchSizes B hB N M]

/-- Witness for C9 at the counterexample's configuration. -/
theorem fit_sample_accounting_witness :
    (0 : ℕ) < 128 ∧
    (clientFit 10000 128 1 50).numExamples = 10000 ∧
    (clientFit 10000 128 1 50).metricsNumSamples = 1 * min (50 * 128) 10000 :=
  ⟨by decide, (fit_sample_accounting 10000 128 1 50 (by decide)).1,
    (fit_sample_accounting 10000 128 1 50 (by decide)).2⟩

/-- C10: encrypted_sum of the empty list is the empty dict; for a non-empty
list the result's keys are exactly the first update's keys in order (extra
keys of later updates are ignored), and the call fails (KeyError, modelled
as none) when a later update is missing one of the first update's keys. -/
theorem encrypted_sum_contract :
    encrypted_sum [] = some [] ∧
    (∀ (first : List (String × CKKSVec)) (rest : List (List (String × CKKSVec)))
        (out : List (String × CKKSVec)),
      encrypted_sum (first :: rest) = some out →
      out.map Prod.fst = first.map Prod.fst) ∧
    (∀ (first : List (String × CKKSVec)) (rest : List (List (String × CKKSVec))),
      (∃ kv ∈ first, ∃ u ∈ rest, dlookup kv.1 u = none) →
      encrypted_sum (first :: rest) = none) := by
  refine ⟨rfl, ?_, ?_⟩
  · intro first rest out h
    simp only [encrypted_sum] at h
    refine optMapM_map_eq _ Prod.fst Prod.fst ?_ first out h
    intro a b hab
    cases hs : sumOverRest a.1 a.2 rest with
    | none =>
      rw [hs] at hab
      exact absurd hab (by simp)
    | some c =>
      rw [hs] at hab
      have hb : ((a.1, c) : String × CKKSVec) = b := by
        simpa using hab
      rw [← hb]
  · intro first rest hex
    obtain ⟨kv, hkv, hfail⟩ := hex
    simp only [encrypted_sum]
    apply optMapM_none
    refine ⟨kv, hkv, ?_⟩
    rw [sumOverRest_none kv.1 rest kv.2 hfail]
    rfl

/-- Witness for C10: a later update missing the first update's key "a"
makes the call fail, and with all keys present the result's keys are
exactly the first update's keys, extra key "c" ignored. -/
theorem encrypted_sum_contract_witness :
    (∃ kv ∈ [("a", ckksEncrypt [1])], ∃ u ∈ [[("b", ckksEncrypt [2])]],
      dlookup kv.1 u = none) ∧
    encrypted_sum [[("a", ckksEncrypt [1])], [("b", ckksEncrypt [2])]] = none ∧
    encrypted_sum [[("a", ckksEncrypt [1]), ("b", ckksEncrypt [2])],
        [("b", ckksEncrypt [4]), ("a", ckksEncrypt [3]), ("c", ckksEncrypt [5])]]
      = some [("a", ckksAdd (ckksEncrypt [1]) (ckksEncrypt [3])),
          ("b", ckksAdd (ckksEncrypt [2]) (ckksEncrypt [4]))] ∧
    ([("a", ckksAdd (ckksEncrypt [1]) (ckksEncrypt [3])),
        ("b", ckksAdd (ckksEncrypt [2]) (ckksEncrypt [4]))].map Prod.fst
      = [("a", ckksEncrypt [1]), ("b", ckksEncrypt [2])].map Prod.fst) := by
  have hlook : dlookup "a" [("b", ckksEncrypt [2])] = none := by
    rw [dlookup_cons]
    simp [dlookup]
  have hex : ∃ kv ∈ [("a", ckksEncrypt [1])], ∃ u ∈ [[("b", ckksEncrypt [2])]],
      dlookup kv.1 u = none :=
    ⟨("a", ckksEncrypt [1]), List.mem_cons_self _ _,
      [("b", ckksEncrypt [2])], List.mem_cons_self _ _, hlook⟩
  have hsome : encrypted_sum [[("a", ckksEncrypt [1]), ("b", ckksEncrypt [2])],
        [("b", ckksEncrypt [4]), ("a", ckksEncrypt [3]), ("c", ckksEncrypt [5])]]
      = some [("a", ckksAdd (ckksEncrypt [1]) (ckksEncrypt [3])),
          ("b", ckksAdd (ckksEncrypt [2]) (ckksEncrypt [4]))] := by
    simp [encrypted_sum, optMapM, sumOverRest, dlookup_cons, dlookup]
  refine ⟨hex, encrypted_sum_contract.2.2 _ _ hex, hsome, ?_⟩
  exact encrypted_sum_contract.2.1 _ _ _ hsome

end FL
